import Mathlib

/-!
Verification development for `renpy/curry.py`.

The module is shallowly embedded below.  Python keyword-argument dictionaries
are modelled as association lists in insertion order (Python dicts preserve
insertion order; keyword names are unique within one dict).  Python values,
callables and the builtin `hash` are kept abstract as type parameters.

Embedded source items:
* class `Curry` (curry.py lines 31-72): structure `Curry`, `Curry.callST`,
  `Curry.beq`, `Curry.hashVal`.
* class `Partial` (curry.py lines 75-109, a `functools.partial` subclass):
  structure `Partial`, `Partial.callST`, `Partial.beq`, `Partial.hashVal`,
  and the recursive value universe `PVal` with its call semantics `pcall`
  for reasoning about `Partial` objects used as callables.
* functions `curry` (lines 112-123) and `partial` (lines 126-134):
  `curry` and `mkPartial` (the latter renamed, `partial` being reserved).
* function `atl_partial_signature` (lines 137-202): `Kind`, `Param`,
  `Signature`, `resolve_allow_posonly`, `transform_param`, `sortParams`,
  `atl_rebind`, `atl_partial_signature`.
-/

namespace RenpyCurry

/-- Python dict lookup on an association list kept in insertion order:
the value of the first entry carrying the given key (`d[k]` / `k in d`). -/
def lookupKw {V : Type} : List (String × V) → String → Option V
  | [], _ => none
  | (k', v) :: rest, k => if k' = k then some v else lookupKw rest k

/-- Python `merged = dict(d); merged.update(u)`: entries of `d` keep their
position, with the value replaced when `u` also binds the key; entries of `u`
whose key is absent from `d` are appended in the order of `u`. -/
def updateKw {V : Type} (d u : List (String × V)) : List (String × V) :=
  d.map (fun kv =>
    match lookupKw u kv.1 with
    | some v => (kv.1, v)
    | none => kv) ++
  u.filter (fun kv => (lookupKw d kv.1).isNone)

/-- Python dict equality: the same keys bound to the same values, insertion
order irrelevant (keys within one dict are unique). -/
def eqKw {V : Type} [DecidableEq V] (d1 d2 : List (String × V)) : Bool :=
  d1.all (fun kv => decide (lookupKw d2 kv.1 = some kv.2)) &&
  d2.all (fun kv => decide (lookupKw d1 kv.1 = some kv.2))

/-- Class `Curry` (curry.py lines 31-41): a callable plus bound positional
and keyword arguments, with the lazily cached hash (`hash = None` until the
first `__hash__` call). -/
structure Curry (V F : Type) where
  callable : F
  args : List V
  kwargs : List (String × V)
  hashCache : Option Nat

/-- `Curry.__call__` (curry.py lines 43-47), with the object state threaded
explicitly: the body builds `merged_kwargs = dict(self.kwargs)` and updates
the copy, assigns no attribute of `self`, and returns
`self.callable(*(self.args + args), **merged_kwargs)`.  The first component
of the result is the state of the instance after the call. -/
def Curry.callST {V F R : Type} (sem : F → List V → List (String × V) → R)
    (c : Curry V F) (args : List V) (kwargs : List (String × V)) :
    Curry V F × R :=
  let merged_kwargs := updateKw c.kwargs kwargs
  (c, sem c.callable (c.args ++ args) merged_kwargs)

/-- `Curry.__eq__` (curry.py lines 54-60): same class, equal callable, equal
positional tuple, equal keyword dict. -/
def Curry.beq {V F : Type} [DecidableEq V] [DecidableEq F]
    (a b : Curry V F) : Bool :=
  decide (a.callable = b.callable) && decide (a.args = b.args) &&
    eqKw a.kwargs b.kwargs

/-- `Curry.__hash__` (curry.py lines 65-72), the value it computes on the
first call: `hash(callable) ^ hash(args)` then xor of `hash(item)` over the
keyword items in insertion order.  The builtin hashes of the callable, of the
positional tuple, and of a `(key, value)` pair are abstract parameters. -/
def Curry.hashVal {V F : Type} (hF : F → Nat) (hArgs : List V → Nat)
    (hPair : String × V → Nat) (c : Curry V F) : Nat :=
  c.kwargs.foldl (fun h i => h ^^^ hPair i) (hF c.callable ^^^ hArgs c.args)

/-- Class `Partial` (curry.py lines 75-109), a `functools.partial` subclass:
stored callable `func`, positional tuple `args`, keyword dict `keywords`. -/
structure Partial (V F : Type) where
  func : F
  args : List V
  keywords : List (String × V)

/-- `functools.partial.__call__` as inherited by `Partial`, with the object
state threaded explicitly: calls `func(*(self.args + args), **merged)` where
`merged` is a fresh copy of `self.keywords` updated with the call keywords;
the instance itself is not modified. -/
def Partial.callST {V F R : Type} (sem : F → List V → List (String × V) → R)
    (p : Partial V F) (args : List V) (kwargs : List (String × V)) :
    Partial V F × R :=
  (p, sem p.func (p.args ++ args) (updateKw p.keywords kwargs))

/-- `Partial.__eq__` (curry.py lines 91-97): same class, equal `func`, equal
`args`, equal `keywords`. -/
def Partial.beq {V F : Type} [DecidableEq V] [DecidableEq F]
    (a b : Partial V F) : Bool :=
  decide (a.func = b.func) && decide (a.args = b.args) &&
    eqKw a.keywords b.keywords

/-- `Partial.__hash__` (curry.py lines 98-109), the value computed on the
first call: `hash(func) ^ hash(args)` then xor of `hash(item)` over the
keyword items in insertion order. -/
def Partial.hashVal {V F : Type} (hF : F → Nat) (hArgs : List V → Nat)
    (hPair : String × V → Nat) (p : Partial V F) : Nat :=
  p.keywords.foldl (fun h i => h ^^^ hPair i) (hF p.func ^^^ hArgs p.args)

/-- Universe of Python values needed to run `curry`: opaque values (`obj`),
opaque external callables (`fnc`), the `Partial` class object itself (`cls`,
used as a callable by `curry`), and `Partial` instances (`inst func args
keywords`). -/
inductive PVal (V F : Type) : Type where
  | obj : V → PVal V F
  | fnc : F → PVal V F
  | cls : PVal V F
  | inst : PVal V F → List (PVal V F) → List (String × PVal V F) → PVal V F

/-- Python call semantics for `PVal`: an external callable defers to the
abstract semantics `sem`; calling the `Partial` class runs the
`functools.partial` constructor (first positional argument becomes `func`,
the rest `args`, call keywords become `keywords`; no flattening occurs since
`Partial` is a proper subclass); calling a `Partial` instance runs
`functools.partial.__call__`: bound positionals first, keyword dicts merged
with call-time keywords winning.  Plain objects are not callable (`none`). -/
def pcall {V F : Type}
    (sem : F → List (PVal V F) → List (String × PVal V F) → PVal V F) :
    PVal V F → List (PVal V F) → List (String × PVal V F) →
    Option (PVal V F)
  | .obj _, _, _ => none
  | .fnc f, args, kwargs => some (sem f args kwargs)
  | .cls, [], _ => none
  | .cls, f :: args, kwargs => some (.inst f args kwargs)
  | .inst f bargs bkw, args, kwargs =>
      pcall sem f (bargs ++ args) (updateKw bkw kwargs)

/-- Function `curry` (curry.py lines 112-123): returns
`Partial(Partial, fn)` — a `Partial` instance whose callable is the
`Partial` class itself and whose sole bound positional argument is `fn`
(docstring/name metadata copying is introspection-only and not modelled). -/
def curry {V F : Type} (fn : F) : PVal V F :=
  .inst .cls [.fnc fn] []

/-- Function `partial` (curry.py lines 126-134), renamed `mkPartial`:
`Partial(function, *args, **kwargs)`. -/
def mkPartial {V F : Type} (function : F) (args : List (PVal V F))
    (kwargs : List (String × PVal V F)) : PVal V F :=
  .inst (.fnc function) args kwargs

/-- Parameter kinds in the order of the `inspect` enumeration used by the
sort key at curry.py line 198: positional-only (0) < positional-or-keyword
(1) < var-positional (2) < keyword-only (3) < var-keyword (4). -/
inductive Kind : Type where
  | posOnly : Kind
  | posOrKw : Kind
  | varPos : Kind
  | kwOnly : Kind
  | varKw : Kind
deriving DecidableEq, Repr

/-- Numeric rank of a kind, the enumeration value compared by the sort. -/
def Kind.rank : Kind → Nat
  | .posOnly => 0
  | .posOrKw => 1
  | .varPos => 2
  | .kwOnly => 3
  | .varKw => 4

/-- Modelled from the spec: the parameter objects of the `renpy.ast`
signature model (the `ast` module is not part of the sources at hand; spec
section 3 gives name, kind, and default-or-no-default, with `param.empty`
rendered as `none`). `param.replace(...)` is structure update. -/
structure Param (V : Type) where
  name : String
  kind : Kind
  default : Option V
deriving DecidableEq, Repr

/-- Modelled from the spec: the `renpy.ast` signature object, an ordered
mapping of parameter names to parameters (spec section 3); modelled as the
list of parameters in order, each entry of the mapping keyed by the
parameter's own name. `signature.replace(parameters=...)` rebuilds it. -/
structure Signature (V : Type) where
  parameters : List (Param V)
deriving DecidableEq, Repr

/-- Modelled from the spec: `signature.extrakw`, the derived
has-catch-all-keyword flag — true iff some parameter has var-keyword kind
(spec section 3). -/
def Signature.extrakw {V : Type} (s : Signature V) : Bool :=
  s.parameters.any (fun p => p.kind == Kind.varKw)

/-- Policy resolution of `atl_partial_signature` (curry.py lines 167-174):
`force_convert_posonly` forces the override to true; otherwise an
unspecified override resolves to `not signature.extrakw`; an explicit value
is used unchanged. -/
def resolve_allow_posonly (force_convert_posonly : Bool)
    (allow_posonly_override : Option Bool) (extrakw : Bool) : Bool :=
  let a := if force_convert_posonly then some true
           else allow_posonly_override
  match a with
  | none => !extrakw
  | some b => b

/-- Loop body of `atl_partial_signature` (curry.py lines 183-196) for one
parameter: var-positional/var-keyword kept; a parameter named in
`passed_parameters` is dropped when positional-only without override allowed,
otherwise replaced by a keyword-only parameter defaulting to the passed
value; an unpassed positional-only parameter becomes positional-or-keyword
under `force_convert_posonly`; anything else is kept. `none` means the
parameter is dropped (`continue`). -/
def transform_param {V : Type} (passed_parameters : List (String × V))
    (allow_posonly_override force_convert_posonly : Bool)
    (param : Param V) : Option (Param V) :=
  if param.kind = Kind.varPos ∨ param.kind = Kind.varKw then
    some param
  else
    match lookupKw passed_parameters param.name with
    | some v =>
        if param.kind = Kind.posOnly ∧ allow_posonly_override = false then
          none
        else
          some { param with default := some v, kind := Kind.kwOnly }
    | none =>
        if param.kind = Kind.posOnly ∧ force_convert_posonly = true then
          some { param with kind := Kind.posOrKw }
        else
          some param

/-- Sort key of curry.py line 198, `(param.kind, param.default is not
param.empty)` collapsed to one natural number: Python compares the pair
lexicographically with `False < True`, which coincides with
`2 * kind + defaultBit`. -/
def sortKey {V : Type} (p : Param V) : Nat :=
  2 * p.kind.rank + (if p.default.isSome then 1 else 0)

/-- Stable insertion of a parameter into a list: the inserted element goes
before the first element with a strictly larger key and after every element
with a smaller-or-equal key appearing earlier, reproducing the placement a
stable sort gives an element that preceded the rest. -/
def insertParam {V : Type} (a : Param V) :
    List (Param V) → List (Param V)
  | [] => [a]
  | b :: l => if sortKey a ≤ sortKey b then a :: b :: l
              else b :: insertParam a l

/-- Python `list.sort(key=...)` (curry.py line 198) is a stable sort by the
key; realised as stable insertion sort, which computes the same (unique)
stable-sort result. -/
def sortParams {V : Type} : List (Param V) → List (Param V)
  | [] => []
  | a :: l => insertParam a (sortParams l)

/-- Body of `atl_partial_signature` after policy resolution (curry.py lines
176-202): fast path returning the signature unchanged when it has no
parameters or nothing was passed; otherwise the per-parameter rewrite loop
followed by the stable sort by `(kind, has-default)`. -/
def atl_rebind {V : Type} [DecidableEq V] (signature : Signature V)
    (passed_parameters : List (String × V))
    (allow_posonly_override force_convert_posonly : Bool) : Signature V :=
  if signature.parameters = [] ∨ passed_parameters = [] then
    signature
  else
    { parameters :=
        sortParams (signature.parameters.filterMap
          (transform_param passed_parameters allow_posonly_override
            force_convert_posonly)) }

/-- Function `atl_partial_signature` (curry.py lines 137-202).  The
`getattr(signature, "eval", signature)` line is the identity here: the
modelled signature object has no `eval` attribute.  Policy resolution
(lines 167-174) happens first, then the rewrite (lines 176-202). -/
def atl_partial_signature {V : Type} [DecidableEq V]
    (signature : Signature V) (passed_parameters : List (String × V))
    (allow_posonly_override : Option Bool)
    (force_convert_posonly : Bool) : Signature V :=
  atl_rebind signature passed_parameters
    (resolve_allow_posonly force_convert_posonly allow_posonly_override
      signature.extrakw)
    force_convert_posonly

/-- Kind-rank monotonicity along the parameter list: positional-only before
positional-or-keyword before var-positional before keyword-only before
var-keyword. -/
def kindOrdered {V : Type} (l : List (Param V)) : Prop :=
  l.Pairwise (fun p q => p.kind.rank ≤ q.kind.rank)

/-- Well-formedness rule on defaults: within the positional-only and the
positional-or-keyword kind classes, a parameter without a default never
follows one with a default. -/
def noDefaultAfterDefault {V : Type} (l : List (Param V)) : Prop :=
  l.Pairwise (fun p q =>
    p.kind = q.kind → (p.kind = Kind.posOnly ∨ p.kind = Kind.posOrKw) →
      p.default.isSome = true → q.default.isSome = true)

/-- The well-formed-signature invariant of spec section 3: kinds appear in
rank order and defaulted parameters trail non-defaulted ones within the
positional kind classes. -/
def WellFormedSig {V : Type} (s : Signature V) : Prop :=
  kindOrdered s.parameters ∧ noDefaultAfterDefault s.parameters

/-- Test fixture: the signature `(a, /, b, **kwargs)` of the spec's
positional-only-consumption example. -/
def sigDemo : Signature Nat :=
  { parameters := [⟨"a", Kind.posOnly, none⟩, ⟨"b", Kind.posOrKw, none⟩,
      ⟨"kwargs", Kind.varKw, none⟩] }

/-- Test fixture: the passed-parameters map `{a: 1, b: 2}` of the spec's
examples. -/
def passedDemo : List (String × Nat) := [("a", 1), ("b", 2)]

/-- Test fixture: a valid signature `(*, a=1, b)` whose parameter order is
not fixed by the sort key, exercising the no-reorder fast path. -/
def sigKwDemo : Signature Nat :=
  { parameters := [⟨"a", Kind.kwOnly, some 1⟩, ⟨"b", Kind.kwOnly, none⟩] }

/-- Test fixture: the signature `(a, /)` with a single positional-only
parameter. -/
def sigPosDemo : Signature Nat :=
  { parameters := [⟨"a", Kind.posOnly, none⟩] }

/-- Test fixture: the signature `(a, /, b)` — a positional-only, b
positional-or-keyword — for exercising the force-convert branch on a
parameter that was not passed. -/
def sigForce : Signature Nat :=
  { parameters := [⟨"a", Kind.posOnly, none⟩, ⟨"b", Kind.posOrKw, none⟩] }

theorem lookupKw_nil {V : Type} (x : String) :
    lookupKw ([] : List (String × V)) x = none := rfl

theorem lookupKw_append {V : Type} (l1 l2 : List (String × V)) (x : String) :
    lookupKw (l1 ++ l2) x = (lookupKw l1 x).or (lookupKw l2 x) := by
  induction l1 with
  | nil => simp [lookupKw]
  | cons kv rest ih =>
      obtain ⟨k, v⟩ := kv
      by_cases hkx : k = x <;> simp [lookupKw, hkx, ih]

theorem lookupKw_updMap {V : Type} (u d : List (String × V)) (x : String) :
    lookupKw (d.map (fun kv =>
        match lookupKw u kv.1 with
        | some v => (kv.1, v)
        | none => kv)) x =
      match lookupKw d x with
      | some v => some ((lookupKw u x).getD v)
      | none => none := by
  induction d with
  | nil => simp [lookupKw]
  | cons kv rest ih =>
      obtain ⟨k, v⟩ := kv
      by_cases hkx : k = x
      · subst hkx
        cases hu : lookupKw u k <;> simp [lookupKw, hu]
      · cases hu : lookupKw u k <;> simp [lookupKw, hu, hkx, ih]

theorem lookupKw_filterNew {V : Type} (d u : List (String × V)) (x : String) :
    lookupKw (u.filter (fun kv => (lookupKw d kv.1).isNone)) x =
      match lookupKw d x with
      | some _ => none
      | none => lookupKw u x := by
  induction u with
  | nil => cases lookupKw d x <;> simp [lookupKw]
  | cons kv rest ih =>
      obtain ⟨k, v⟩ := kv
      by_cases hkx : k = x
      · subst hkx
        cases hd : lookupKw d k <;> simp [lookupKw, hd, ih]
      · cases hd : lookupKw d k <;>
          cases hdx : lookupKw d x <;>
            simp [lookupKw, hd, hdx, hkx, ih]

theorem lookupKw_updateKw {V : Type} (d u : List (String × V)) (x : String) :
    lookupKw (updateKw d u) x = (lookupKw u x).or (lookupKw d x) := by
  unfold updateKw
  rw [lookupKw_append, lookupKw_updMap, lookupKw_filterNew]
  cases hd : lookupKw d x <;> cases hu : lookupKw u x <;> simp [Option.or]

theorem updateKw_nil {V : Type} (u : List (String × V)) :
    updateKw [] u = u := by
  unfold updateKw
  simp [lookupKw]

theorem lookupKw_mem {V : Type} {d : List (String × V)} {k : String} {v : V}
    (h : lookupKw d k = some v) : (k, v) ∈ d := by
  induction d with
  | nil => simp [lookupKw] at h
  | cons kv rest ih =>
      obtain ⟨k', v'⟩ := kv
      by_cases hk : k' = k
      · subst hk
        simp [lookupKw] at h
        simp [h]
      · simp [lookupKw, hk] at h
        exact List.mem_cons_of_mem _ (ih h)

theorem lookupKw_filter_ne {V : Type} (d : List (String × V))
    (bad x : String) (hx : x ≠ bad) :
    lookupKw (d.filter (fun kv => kv.1 != bad)) x = lookupKw d x := by
  induction d with
  | nil => simp
  | cons kv rest ih =>
      obtain ⟨k, v⟩ := kv
      by_cases hkb : k = bad
      · subst hkb
        have hkx : k ≠ x := fun h => hx h.symm
        simp [lookupKw, List.filter_cons, hkx, ih]
      · by_cases hkx : k = x <;>
          simp [lookupKw, List.filter_cons, bne_iff_ne, hkb, hkx, hx, ih]

theorem xor_swap (a b c : Nat) : a ^^^ b ^^^ c = a ^^^ c ^^^ b := by
  rw [Nat.xor_assoc, Nat.xor_assoc, Nat.xor_comm b c]

theorem foldl_xor_perm {α : Type} (h : α → Nat) {l1 l2 : List α}
    (hp : l1.Perm l2) :
    ∀ init : Nat,
      l1.foldl (fun acc x => acc ^^^ h x) init =
        l2.foldl (fun acc x => acc ^^^ h x) init := by
  induction hp with
  | nil => intro init; rfl
  | cons a _ ih => intro init; simp only [List.foldl_cons]; exact ih _
  | swap a b l =>
      intro init
      simp only [List.foldl_cons]
      rw [xor_swap]
  | trans _ _ ih1 ih2 => intro init; rw [ih1, ih2]

theorem eqKw_lookup {V : Type} [DecidableEq V] {d1 d2 : List (String × V)}
    (he : eqKw d1 d2 = true) {kv : String × V} (hm : kv ∈ d1) :
    lookupKw d2 kv.1 = some kv.2 := by
  unfold eqKw at he
  rw [Bool.and_eq_true] at he
  exact of_decide_eq_true (List.all_eq_true.mp he.1 kv hm)

theorem eqKw_symm_lookup {V : Type} [DecidableEq V] {d1 d2 : List (String × V)}
    (he : eqKw d1 d2 = true) {kv : String × V} (hm : kv ∈ d2) :
    lookupKw d1 kv.1 = some kv.2 := by
  unfold eqKw at he
  rw [Bool.and_eq_true] at he
  exact of_decide_eq_true (List.all_eq_true.mp he.2 kv hm)

theorem eqKw_perm {V : Type} [DecidableEq V] {d1 d2 : List (String × V)}
    (h1 : (d1.map Prod.fst).Nodup) (h2 : (d2.map Prod.fst).Nodup)
    (he : eqKw d1 d2 = true) : d1.Perm d2 := by
  refine (List.perm_ext_iff_of_nodup (List.Nodup.of_map _ h1)
    (List.Nodup.of_map _ h2)).mpr ?_
  intro kv
  constructor
  · intro hm
    exact lookupKw_mem (eqKw_lookup he hm)
  · intro hm
    exact lookupKw_mem (eqKw_symm_lookup he hm)

theorem hashFold_eq_of_eqKw {V : Type} [DecidableEq V]
    (hPair : String × V → Nat) {d1 d2 : List (String × V)}
    (h1 : (d1.map Prod.fst).Nodup) (h2 : (d2.map Prod.fst).Nodup)
    (he : eqKw d1 d2 = true) (init : Nat) :
    d1.foldl (fun h i => h ^^^ hPair i) init =
      d2.foldl (fun h i => h ^^^ hPair i) init :=
  foldl_xor_perm hPair (eqKw_perm h1 h2 he) init

theorem insertParam_perm {V : Type} (a : Param V) (l : List (Param V)) :
    (insertParam a l).Perm (a :: l) := by
  induction l with
  | nil => exact List.Perm.refl _
  | cons b t ih =>
      by_cases h : sortKey a ≤ sortKey b
      · simp [insertParam, h]
      · simp only [insertParam, if_neg h]
        exact (ih.cons b).trans (List.Perm.swap a b t)

theorem sortParams_perm {V : Type} (l : List (Param V)) :
    (sortParams l).Perm l := by
  induction l with
  | nil => exact List.Perm.refl _
  | cons a t ih =>
      exact (insertParam_perm a (sortParams t)).trans (ih.cons a)

theorem insertParam_pairwise {V : Type} (a : Param V) {l : List (Param V)}
    (hl : l.Pairwise (fun p q => sortKey p ≤ sortKey q)) :
    (insertParam a l).Pairwise (fun p q => sortKey p ≤ sortKey q) := by
  induction l with
  | nil => simp [insertParam]
  | cons b t ih =>
      rw [List.pairwise_cons] at hl
      by_cases h : sortKey a ≤ sortKey b
      · rw [insertParam, if_pos h, List.pairwise_cons]
        constructor
        · intro c hc
          rcases List.mem_cons.mp hc with hcb | hct
          · exact hcb ▸ h
          · exact le_trans h (hl.1 c hct)
        · exact List.pairwise_cons.mpr hl
      · rw [insertParam, if_neg h, List.pairwise_cons]
        constructor
        · intro c hc
          rcases List.mem_cons.mp ((insertParam_perm a t).mem_iff.mp hc)
            with rfl | hct
          · exact Nat.le_of_not_le h
          · exact hl.1 c hct
        · exact ih hl.2

theorem sortParams_pairwise {V : Type} (l : List (Param V)) :
    (sortParams l).Pairwise (fun p q => sortKey p ≤ sortKey q) := by
  induction l with
  | nil => simp [sortParams]
  | cons a t ih => exact insertParam_pairwise a ih

theorem filter_insertParam {V : Type} (k : Nat) (a : Param V)
    (l : List (Param V)) :
    (insertParam a l).filter (fun p => sortKey p == k) =
      if sortKey a == k then
        a :: l.filter (fun p => sortKey p == k)
      else
        l.filter (fun p => sortKey p == k) := by
  induction l with
  | nil =>
      by_cases h : sortKey a = k <;>
        simp [insertParam, List.filter_cons, beq_iff_eq, h]
  | cons b t ih =>
      by_cases hab : sortKey a ≤ sortKey b
      · rw [insertParam, if_pos hab]
        by_cases ha : sortKey a = k <;>
          simp [List.filter_cons, beq_iff_eq, ha]
      · rw [insertParam, if_neg hab]
        by_cases hb : sortKey b = k
        · have ha : ¬ sortKey a = k := by
            intro h
            exact hab (by rw [h, hb])
          simp [List.filter_cons, beq_iff_eq, hb, ha, ih]
        · by_cases ha : sortKey a = k <;>
            simp [List.filter_cons, beq_iff_eq, hb, ha, ih]

theorem sortParams_filter {V : Type} (k : Nat) (l : List (Param V)) :
    (sortParams l).filter (fun p => sortKey p == k) =
      l.filter (fun p => sortKey p == k) := by
  induction l with
  | nil => rfl
  | cons a t ih =>
      rw [sortParams, filter_insertParam]
      by_cases ha : sortKey a = k <;>
        simp [List.filter_cons, beq_iff_eq, ha, ih]

theorem transform_param_name {V : Type} {passed : List (String × V)}
    {al fc : Bool} {p q : Param V}
    (h : transform_param passed al fc p = some q) : q.name = p.name := by
  unfold transform_param at h
  split at h
  · cases h
    rfl
  · split at h
    · split at h
      · cases h
      · cases h
        rfl
    · split at h
      · cases h
        rfl
      · cases h
        rfl

theorem name_mem_of_mem_filterMap {V : Type} {passed : List (String × V)}
    {al fc : Bool} {l : List (Param V)} {q : Param V}
    (h : q ∈ l.filterMap (transform_param passed al fc)) :
    ∃ p ∈ l, q.name = p.name := by
  obtain ⟨p, hp, hq⟩ := List.mem_filterMap.mp h
  exact ⟨p, hp, transform_param_name hq⟩

theorem filter_name_filterMap {V : Type} (passed : List (String × V))
    (al fc : Bool) (l : List (Param V))
    (hnd : (l.map Param.name).Nodup) (p : Param V) (hp : p ∈ l) :
    (l.filterMap (transform_param passed al fc)).filter
        (fun q => q.name == p.name) =
      (transform_param passed al fc p).toList := by
  induction l with
  | nil => cases hp
  | cons r rest ih =>
      rw [List.map_cons, List.nodup_cons] at hnd
      rcases List.mem_cons.mp hp with rfl | hprest
      · have hrest :
            (rest.filterMap (transform_param passed al fc)).filter
              (fun q => q.name == p.name) = [] := by
          rw [List.filter_eq_nil_iff]
          intro q hq
          obtain ⟨s, hs, hqs⟩ := name_mem_of_mem_filterMap hq
          have : q.name ≠ p.name := by
            intro h
            exact hnd.1 (h ▸ hqs ▸ List.mem_map_of_mem Param.name hs)
          simp [this]
        rw [List.filterMap_cons]
        cases ht : transform_param passed al fc p with
        | none => simpa [ht] using hrest
        | some q =>
            have hqn : (q.name == p.name) = true :=
              beq_iff_eq.mpr (transform_param_name ht)
            simp [List.filter_cons, hqn, hrest, ht]
      · have hrn : r.name ≠ p.name := by
          intro h
          exact hnd.1 (h ▸ List.mem_map_of_mem Param.name hprest)
        rw [List.filterMap_cons]
        cases ht : transform_param passed al fc r with
        | none => exact ih hnd.2 hprest
        | some q =>
            have hqn : ¬ (q.name == p.name) = true := by
              simp [beq_iff_eq, transform_param_name ht, hrn]
            simp only [List.filter_cons, hqn, if_neg, Bool.false_eq_true,
              ite_false]
            exact ih hnd.2 hprest

theorem atl_main_path {V : Type} [DecidableEq V] (sig : Signature V)
    (passed : List (String × V)) (allow : Option Bool) (force : Bool)
    (hps : sig.parameters ≠ []) (hpa : passed ≠ []) :
    atl_partial_signature sig passed allow force =
      { parameters :=
          sortParams (sig.parameters.filterMap
            (transform_param passed
              (resolve_allow_posonly force allow sig.extrakw) force)) } := by
  unfold atl_partial_signature atl_rebind
  rw [if_neg]
  intro h
  rcases h with h | h
  · exact hps h
  · exact hpa h

theorem atl_filter_name {V : Type} [DecidableEq V] (sig : Signature V)
    (passed : List (String × V)) (allow : Option Bool) (force : Bool)
    (hnd : (sig.parameters.map Param.name).Nodup) (p : Param V)
    (hp : p ∈ sig.parameters) (hpa : passed ≠ []) :
    (atl_partial_signature sig passed allow force).parameters.filter
        (fun q => q.name == p.name) =
      (transform_param passed
        (resolve_allow_posonly force allow sig.extrakw) force p).toList := by
  rw [atl_main_path sig passed allow force (List.ne_nil_of_mem hp) hpa]
  have hperm :
      ((sortParams (sig.parameters.filterMap (transform_param passed
          (resolve_allow_posonly force allow sig.extrakw) force))).filter
        (fun q => q.name == p.name)).Perm
      ((sig.parameters.filterMap (transform_param passed
          (resolve_allow_posonly force allow sig.extrakw) force)).filter
        (fun q => q.name == p.name)) :=
    (sortParams_perm _).filter _
  rw [filter_name_filterMap _ _ _ _ hnd p hp] at hperm
  cases ht : transform_param passed
      (resolve_allow_posonly force allow sig.extrakw) force p with
  | none =>
      rw [ht] at hperm
      exact hperm.eq_nil
  | some q =>
      rw [ht] at hperm
      exact List.perm_singleton.mp hperm

theorem rank_le_of_sortKey_le {V : Type} {p q : Param V}
    (h : sortKey p ≤ sortKey q) : p.kind.rank ≤ q.kind.rank := by
  unfold sortKey at h
  by_cases hp : p.default.isSome <;> by_cases hq : q.default.isSome <;>
    simp [hp, hq] at h <;> omega

theorem default_mono_of_sortKey_le {V : Type} {p q : Param V}
    (h : sortKey p ≤ sortKey q) (hk : p.kind = q.kind)
    (hd : p.default.isSome = true) : q.default.isSome = true := by
  by_cases hq : q.default.isSome
  · exact hq
  · exfalso
    unfold sortKey at h
    rw [hk] at h
    simp [hd, hq] at h

/-- Claim C1: a parameter named in `passed_parameters` whose kind is neither
var-positional nor var-keyword is dropped from the output when it is
positional-only and the resolved `allow_posonly_override` is false, and is
otherwise replaced by a keyword-only parameter of the same name defaulting
to the passed value. -/
theorem claim_C1 {V : Type} [DecidableEq V] (sig : Signature V)
    (passed : List (String × V)) (allow : Option Bool) (force : Bool)
    (hnd : (sig.parameters.map Param.name).Nodup)
    (p : Param V) (hp : p ∈ sig.parameters) (v : V)
    (hv : lookupKw passed p.name = some v)
    (h1 : p.kind ≠ Kind.varPos) (h2 : p.kind ≠ Kind.varKw) :
    (p.kind = Kind.posOnly →
      resolve_allow_posonly force allow sig.extrakw = false →
      (atl_partial_signature sig passed allow force).parameters.filter
          (fun q => q.name == p.name) = []) ∧
    ((p.kind = Kind.posOnly →
        resolve_allow_posonly force allow sig.extrakw = true) →
      (atl_partial_signature sig passed allow force).parameters.filter
          (fun q => q.name == p.name) =
        [{ p with kind := Kind.kwOnly, default := some v }]) := by
  have hpa : passed ≠ [] := by
    intro h
    rw [h] at hv
    simp [lookupKw] at hv
  have hfilter := atl_filter_name sig passed allow force hnd p hp hpa
  constructor
  · intro hk hr
    rw [hfilter]
    unfold transform_param
    simp [hv, hk, hr]
  · intro himp
    rw [hfilter]
    unfold transform_param
    by_cases hk : p.kind = Kind.posOnly
    · have hr := himp hk
      simp [hv, hk, hr]
    · simp [hv, hk, h1, h2]

/-- Witness for C1 at the spec's positional-only-consumption example:
signature `(a, /, b, **kwargs)` with `passed_parameters = {a: 1, b: 2}` and
default flags drops `a` and turns `b` into keyword-only with default 2. -/
theorem claim_C1_witness :
    (atl_partial_signature sigDemo passedDemo none false).parameters.filter
        (fun q => q.name == "a") = [] ∧
    (atl_partial_signature sigDemo passedDemo none false).parameters.filter
        (fun q => q.name == "b") =
      [{ name := "b", kind := Kind.kwOnly, default := some (2 : Nat) }] := by
  constructor
  · exact (claim_C1 sigDemo passedDemo none false (by decide)
      ⟨"a", Kind.posOnly, none⟩ (by decide) 1 (by decide) (by decide)
      (by decide)).1 rfl (by decide)
  · exact (claim_C1 sigDemo passedDemo none false (by decide)
      ⟨"b", Kind.posOrKw, none⟩ (by decide) 2 (by decide) (by decide)
      (by decide)).2 (fun hk => absurd hk (by decide))

/-- Claim C2: `atl_partial_signature` resolves the override policy as a pure
function of its flags — forced to true by `force_convert_posonly`, defaulted
to the negation of `signature.extrakw` when unspecified, and otherwise the
explicit value — and rewrites the signature with the resolved value. -/
theorem claim_C2 {V : Type} [DecidableEq V] (sig : Signature V)
    (passed : List (String × V)) (allow : Option Bool) (force : Bool) :
    atl_partial_signature sig passed allow force =
      atl_rebind sig passed
        (resolve_allow_posonly force allow sig.extrakw) force ∧
    (∀ a, resolve_allow_posonly true a sig.extrakw = true) ∧
    resolve_allow_posonly false none sig.extrakw = !sig.extrakw ∧
    ∀ b, resolve_allow_posonly false (some b) sig.extrakw = b :=
  ⟨rfl, fun _ => rfl, rfl, fun _ => rfl⟩

/-- Claim C3 (amended): on the non-fast path — nonempty parameters and
nonempty `passed_parameters` — the returned parameter sequence is the stable
sort of the transformed parameters by `(kind-rank, has-default)`
(`sortParams`, which is sorted, a permutation, and preserves the relative
order within every key class); and for every well-formed input the output
respects the kind ordering and the no-non-default-after-default rule. -/
theorem claim_C3 {V : Type} [DecidableEq V] (sig : Signature V)
    (passed : List (String × V)) (allow : Option Bool) (force : Bool)
    (hwf : WellFormedSig sig) :
    (sig.parameters ≠ [] → passed ≠ [] →
      (atl_partial_signature sig passed allow force).parameters =
        sortParams (sig.parameters.filterMap
          (transform_param passed
            (resolve_allow_posonly force allow sig.extrakw) force))) ∧
    (∀ l : List (Param V),
      (sortParams l).Pairwise (fun p q => sortKey p ≤ sortKey q) ∧
      (sortParams l).Perm l ∧
      ∀ k, (sortParams l).filter (fun p => sortKey p == k) =
        l.filter (fun p => sortKey p == k)) ∧
    kindOrdered (atl_partial_signature sig passed allow force).parameters ∧
    noDefaultAfterDefault
      (atl_partial_signature sig passed allow force).parameters := by
  refine ⟨?_, ?_, ?_, ?_⟩
  · intro h1 h2
    rw [atl_main_path sig passed allow force h1 h2]
  · intro l
    exact ⟨sortParams_pairwise l, sortParams_perm l,
      fun k => sortParams_filter k l⟩
  · by_cases hfast : sig.parameters = [] ∨ passed = []
    · unfold atl_partial_signature atl_rebind
      rw [if_pos hfast]
      exact hwf.1
    · rw [atl_main_path sig passed allow force (not_or.mp hfast).1
        (not_or.mp hfast).2]
      exact (sortParams_pairwise _).imp (fun h => rank_le_of_sortKey_le h)
  · by_cases hfast : sig.parameters = [] ∨ passed = []
    · unfold atl_partial_signature atl_rebind
      rw [if_pos hfast]
      exact hwf.2
    · rw [atl_main_path sig passed allow force (not_or.mp hfast).1
        (not_or.mp hfast).2]
      exact (sortParams_pairwise _).imp
        (fun h hk _ hd => default_mono_of_sortKey_le h hk hd)

/-- Counterexample to C3 as stated: on the fast path (here: empty
`passed_parameters`) the function returns the input signature without
sorting, so the valid signature `(*, a=1, b)` — whose order the sort key
would flip — is not the stable sort of its transformed parameters. -/
theorem claim_C3_cex :
    atl_partial_signature sigKwDemo ([] : List (String × Nat)) none false ≠
      { parameters := sortParams (sigKwDemo.parameters.filterMap
          (transform_param ([] : List (String × Nat))
            (resolve_allow_posonly false none sigKwDemo.extrakw) false)) } := by
  decide

/-- Witness for C3 on the spec's example signature, which is well-formed and
takes the main path. -/
theorem claim_C3_witness :
    (atl_partial_signature sigDemo passedDemo none false).parameters =
      sortParams (sigDemo.parameters.filterMap
        (transform_param passedDemo
          (resolve_allow_posonly false none sigDemo.extrakw) false)) ∧
    kindOrdered
      (atl_partial_signature sigDemo passedDemo none false).parameters := by
  have h := claim_C3 sigDemo passedDemo none false
    (by refine ⟨?_, ?_⟩
        · unfold kindOrdered; decide
        · unfold noDefaultAfterDefault; decide)
  exact ⟨h.1 (by decide) (by decide), h.2.2.1⟩

/-- Claim C4: invoking a bound `Curry` or `Partial` calls the wrapped
callable with the bound positionals followed by the call-time positionals
and with the bound keywords updated by the call-time keywords (call-time
wins on collision, non-colliding bound keys survive), returning the result
unchanged; in particular `partial(f, 1, 2, k=3)(4, k=9, m=5)` calls
`f(1, 2, 4, k=9, m=5)`. -/
theorem claim_C4 {V F R : Type} (sem : F → List V → List (String × V) → R)
    (f : F) (A : List V) (K : List (String × V)) (hc : Option Nat)
    (B : List V) (L : List (String × V))
    (psem : F → List (PVal V F) → List (String × PVal V F) → PVal V F)
    (g : F) (v1 v2 v3 v4 v5 v9 : PVal V F) :
    Curry.callST sem ⟨f, A, K, hc⟩ B L =
      (⟨f, A, K, hc⟩, sem f (A ++ B) (updateKw K L)) ∧
    Partial.callST sem ⟨f, A, K⟩ B L =
      (⟨f, A, K⟩, sem f (A ++ B) (updateKw K L)) ∧
    (∀ x, lookupKw (updateKw K L) x =
      (lookupKw L x).or (lookupKw K x)) ∧
    pcall psem (mkPartial g [v1, v2] [("k", v3)]) [v4]
        [("k", v9), ("m", v5)] =
      some (psem g [v1, v2, v4] [("k", v9), ("m", v5)]) :=
  ⟨rfl, rfl, fun x => lookupKw_updateKw K L x, rfl⟩

/-- Claim C5: hash is consistent with equality for `Curry` and for
`Partial` — equal instances have equal hash values, the hash being
hash(callable) xor hash(args) xor the xor over the keyword item hashes. -/
theorem claim_C5 {V F : Type} [DecidableEq V] [DecidableEq F]
    (hF : F → Nat) (hArgs : List V → Nat) (hPair : String × V → Nat)
    (a b : Curry V F) (p q : Partial V F)
    (ha : (a.kwargs.map Prod.fst).Nodup)
    (hb : (b.kwargs.map Prod.fst).Nodup)
    (hp : (p.keywords.map Prod.fst).Nodup)
    (hq : (q.keywords.map Prod.fst).Nodup) :
    (Curry.beq a b = true →
      Curry.hashVal hF hArgs hPair a = Curry.hashVal hF hArgs hPair b) ∧
    (Partial.beq p q = true →
      Partial.hashVal hF hArgs hPair p = Partial.hashVal hF hArgs hPair q) := by
  constructor
  · intro he
    unfold Curry.beq at he
    rw [Bool.and_eq_true, Bool.and_eq_true] at he
    obtain ⟨⟨hc, hargs⟩, hkw⟩ := he
    unfold Curry.hashVal
    rw [of_decide_eq_true hc, of_decide_eq_true hargs]
    exact hashFold_eq_of_eqKw hPair ha hb hkw _
  · intro he
    unfold Partial.beq at he
    rw [Bool.and_eq_true, Bool.and_eq_true] at he
    obtain ⟨⟨hc, hargs⟩, hkw⟩ := he
    unfold Partial.hashVal
    rw [of_decide_eq_true hc, of_decide_eq_true hargs]
    exact hashFold_eq_of_eqKw hPair hp hq hkw _

/-- Witness for C5 on concrete equal instances with reordered keyword
items. -/
theorem claim_C5_witness :
    Curry.hashVal (fun n => n) (fun l => l.length) (fun kv => kv.2)
        (⟨5, [1], [("x", 1), ("y", 2)], none⟩ : Curry Nat Nat) =
      Curry.hashVal (fun n => n) (fun l => l.length) (fun kv => kv.2)
        ⟨5, [1], [("y", 2), ("x", 1)], none⟩ ∧
    Partial.hashVal (fun n => n) (fun l => l.length) (fun kv => kv.2)
        (⟨5, [1], [("x", 1), ("y", 2)]⟩ : Partial Nat Nat) =
      Partial.hashVal (fun n => n) (fun l => l.length) (fun kv => kv.2)
        ⟨5, [1], [("y", 2), ("x", 1)]⟩ := by
  have h := claim_C5 (fun n => n) (fun l => l.length) (fun kv => kv.2)
    (⟨5, [1], [("x", 1), ("y", 2)], none⟩ : Curry Nat Nat)
    ⟨5, [1], [("y", 2), ("x", 1)], none⟩
    (⟨5, [1], [("x", 1), ("y", 2)]⟩ : Partial Nat Nat)
    ⟨5, [1], [("y", 2), ("x", 1)]⟩
    (by decide) (by decide) (by decide) (by decide)
  exact ⟨h.1 (by decide), h.2 (by decide)⟩

/-- Claim C6: equality and hash of `Curry` and `Partial` are independent of
keyword insertion order — swapping two distinct keyword entries yields an
equal instance with the same hash. -/
theorem claim_C6 {V F : Type} [DecidableEq V] [DecidableEq F]
    (hF : F → Nat) (hArgs : List V → Nat) (hPair : String × V → Nat)
    (f : F) (args : List V) (hc : Option Nat) (x y : String) (u v : V)
    (hxy : x ≠ y) :
    (Curry.beq ⟨f, args, [(x, u), (y, v)], hc⟩
        ⟨f, args, [(y, v), (x, u)], hc⟩ = true ∧
      Curry.hashVal hF hArgs hPair ⟨f, args, [(x, u), (y, v)], hc⟩ =
        Curry.hashVal hF hArgs hPair ⟨f, args, [(y, v), (x, u)], hc⟩) ∧
    (Partial.beq ⟨f, args, [(x, u), (y, v)]⟩
        ⟨f, args, [(y, v), (x, u)]⟩ = true ∧
      Partial.hashVal hF hArgs hPair ⟨f, args, [(x, u), (y, v)]⟩ =
        Partial.hashVal hF hArgs hPair ⟨f, args, [(y, v), (x, u)]⟩) := by
  have hyx : y ≠ x := Ne.symm hxy
  have hbeq : eqKw [(x, u), (y, v)] [(y, v), (x, u)] = true := by
    simp [eqKw, lookupKw, hxy, hyx]
  refine ⟨⟨?_, ?_⟩, ⟨?_, ?_⟩⟩
  · simp [Curry.beq, hbeq]
  · unfold Curry.hashVal
    simp only [List.foldl_cons, List.foldl_nil]
    exact xor_swap _ _ _
  · simp [Partial.beq, hbeq]
  · unfold Partial.hashVal
    simp only [List.foldl_cons, List.foldl_nil]
    exact xor_swap _ _ _

/-- Witness for C6 with the keyword names x and y of the spec's example. -/
theorem claim_C6_witness :
    Curry.beq (⟨1, [2], [("x", 3), ("y", 4)], none⟩ : Curry Nat Nat)
        ⟨1, [2], [("y", 4), ("x", 3)], none⟩ = true ∧
    Curry.hashVal (fun n => n) (fun l => l.length) (fun kv => kv.2)
        (⟨1, [2], [("x", 3), ("y", 4)], none⟩ : Curry Nat Nat) =
      Curry.hashVal (fun n => n) (fun l => l.length) (fun kv => kv.2)
        ⟨1, [2], [("y", 4), ("x", 3)], none⟩ := by
  have h := claim_C6 (fun n => n) (fun l => l.length) (fun kv => kv.2)
    (1 : Nat) [(2 : Nat)] none "x" "y" (3 : Nat) 4 (by decide)
  exact ⟨h.1.1, h.1.2⟩

/-- Claim C7: `curry(f)` applied once yields exactly `partial(f, ...)` with
the same arguments, so the two-stage chain `curry(f)(1, 2)(3)` and the
single-stage `partial(f, 1, 2)(3)` both invoke `f(1, 2, 3)` and produce
identical results. -/
theorem claim_C7 {V F : Type}
    (sem : F → List (PVal V F) → List (String × PVal V F) → PVal V F)
    (f : F) (a1 : List (PVal V F)) (k1 : List (String × PVal V F))
    (v1 v2 v3 : PVal V F) :
    pcall sem (curry f) a1 k1 = some (mkPartial f a1 k1) ∧
    Option.bind (pcall sem (curry f) [v1, v2] [])
        (fun g => pcall sem g [v3] []) =
      pcall sem (mkPartial f [v1, v2] []) [v3] [] ∧
    pcall sem (mkPartial f [v1, v2] []) [v3] [] =
      some (sem f [v1, v2, v3] []) := by
  refine ⟨?_, ?_, rfl⟩
  · simp [curry, mkPartial, pcall, updateKw_nil]
  · simp [curry, mkPartial, pcall, updateKw_nil]

/-- Claim C8 (amended): when `passed_parameters` is nonempty, a parameter
not named in it that is positional-only is, under
`force_convert_posonly = true`, replaced by the same parameter with kind
positional-or-keyword and its default unchanged. -/
theorem claim_C8 {V : Type} [DecidableEq V] (sig : Signature V)
    (passed : List (String × V)) (allow : Option Bool)
    (hnd : (sig.parameters.map Param.name).Nodup)
    (p : Param V) (hp : p ∈ sig.parameters)
    (hv : lookupKw passed p.name = none)
    (hk : p.kind = Kind.posOnly) (hpa : passed ≠ []) :
    (atl_partial_signature sig passed allow true).parameters.filter
        (fun q => q.name == p.name) =
      [{ p with kind := Kind.posOrKw }] := by
  have hfilter := atl_filter_name sig passed allow true hnd p hp hpa
  rw [hfilter]
  unfold transform_param
  simp [hv, hk]

/-- Counterexample to C8 as stated: with an empty `passed_parameters` map —
under which every parameter name is absent — the fast path returns the
signature unchanged and the positional-only parameter is not converted,
even though `force_convert_posonly` is true. -/
theorem claim_C8_cex :
    (atl_partial_signature sigPosDemo ([] : List (String × Nat)) none
        true).parameters.filter (fun q => q.name == "a") ≠
      [{ name := "a", kind := Kind.posOrKw, default := none }] := by
  decide

/-- Witness for C8 on `(a, /, b)` with `{b: 2}` passed and force-convert
on: the unpassed positional-only `a` becomes positional-or-keyword. -/
theorem claim_C8_witness :
    (atl_partial_signature sigForce [("b", (2 : Nat))] none
        true).parameters.filter (fun q => q.name == "a") =
      [{ name := "a", kind := Kind.posOrKw, default := none }] :=
  claim_C8 sigForce [("b", 2)] none (by decide)
    ⟨"a", Kind.posOnly, none⟩ (by decide) (by decide) (by decide)
    (by decide)

/-- Claim C9 (amended): an entry of `passed_parameters` whose key matches no
parameter name is silently ignored — the key appears nowhere in the output
and the result is exactly the one computed without that entry — provided
`passed_parameters` stays nonempty after the entry is removed (removal down
to empty switches to the no-op fast path, which skips the final sort). -/
theorem claim_C9 {V : Type} [DecidableEq V] (sig : Signature V)
    (passed : List (String × V)) (bad : String) (allow : Option Bool)
    (force : Bool)
    (hbad : ∀ p ∈ sig.parameters, p.name ≠ bad)
    (hne : passed.filter (fun kv => kv.1 != bad) ≠ []) :
    atl_partial_signature sig passed allow force =
      atl_partial_signature sig (passed.filter (fun kv => kv.1 != bad))
        allow force ∧
    ∀ q ∈ (atl_partial_signature sig passed allow force).parameters,
      q.name ≠ bad := by
  have hpa : passed ≠ [] := by
    intro h
    rw [h] at hne
    exact hne rfl
  have htf : ∀ p ∈ sig.parameters,
      transform_param passed
          (resolve_allow_posonly force allow sig.extrakw) force p =
        transform_param (passed.filter (fun kv => kv.1 != bad))
          (resolve_allow_posonly force allow sig.extrakw) force p := by
    intro p hp
    unfold transform_param
    rw [lookupKw_filter_ne passed bad p.name (hbad p hp)]
  by_cases hps : sig.parameters = []
  · constructor
    · unfold atl_partial_signature atl_rebind
      rw [if_pos (Or.inl hps), if_pos (Or.inl hps)]
    · intro q hq
      unfold atl_partial_signature atl_rebind at hq
      rw [if_pos (Or.inl hps)] at hq
      exact hbad q hq
  · have h1 := atl_main_path sig passed allow force hps hpa
    have h2 := atl_main_path sig (passed.filter (fun kv => kv.1 != bad))
      allow force hps hne
    constructor
    · rw [h1, h2]
      exact congrArg (fun l => Signature.mk (sortParams l))
        (List.filterMap_congr htf)
    · intro q hq
      rw [h1] at hq
      have hq2 := (sortParams_perm _).mem_iff.mp hq
      obtain ⟨r, hrmem, hname⟩ := name_mem_of_mem_filterMap hq2
      rw [hname]
      exact hbad r hrmem

/-- Counterexample to C9 as stated: on the valid signature `(*, a=1, b)`, a
map holding only the unknown name z produces a sorted output, while
removing that entry empties the map and hits the no-op fast path — the two
outputs list the parameters in different orders. -/
theorem claim_C9_cex :
    atl_partial_signature sigKwDemo [("z", (0 : Nat))] none false ≠
      atl_partial_signature sigKwDemo ([] : List (String × Nat)) none
        false := by
  decide

/-- Witness for C9: dropping the unknown entry zz from a nonempty remainder
leaves the output unchanged. -/
theorem claim_C9_witness :
    atl_partial_signature sigDemo [("a", (1 : Nat)), ("zz", 9), ("b", 2)]
        none false =
      atl_partial_signature sigDemo
        ([("a", (1 : Nat)), ("zz", 9), ("b", 2)].filter
          (fun kv => kv.1 != "zz")) none false :=
  (claim_C9 sigDemo [("a", 1), ("zz", 9), ("b", 2)] "zz" none false
    (by decide) (by decide)).1

/-- Claim C10: invoking a `Curry` or a `Partial` leaves the instance state
unchanged (the merge happens in a fresh dict), so a repeated call with
equal call-time arguments produces the same combined arguments and the
same result. -/
theorem claim_C10 {V F R : Type} (sem : F → List V → List (String × V) → R)
    (c : Curry V F) (p : Partial V F) (a : List V)
    (k : List (String × V)) :
    ((Curry.callST sem c a k).1 = c ∧
      ((Curry.callST sem c a k).1.args ++ a,
        updateKw (Curry.callST sem c a k).1.kwargs k) =
        (c.args ++ a, updateKw c.kwargs k) ∧
      Curry.callST sem (Curry.callST sem c a k).1 a k =
        Curry.callST sem c a k) ∧
    ((Partial.callST sem p a k).1 = p ∧
      ((Partial.callST sem p a k).1.args ++ a,
        updateKw (Partial.callST sem p a k).1.keywords k) =
        (p.args ++ a, updateKw p.keywords k) ∧
      Partial.callST sem (Partial.callST sem p a k).1 a k =
        Partial.callST sem p a k) :=
  ⟨⟨rfl, rfl, rfl⟩, ⟨rfl, rfl, rfl⟩⟩

end RenpyCurry
